import Mathlib

/-!
Shallow embedding of the tempo-aware musical-event timeline decoder:
the binary sequenced-music parser (`midi_to_json_custom.py`) and the
automation-curve time mapper and timeline assembler
(`dawproject_to_json.py`).  Bytes are modelled as natural numbers,
Python integers as `Nat`/`Int`, Python floats as `ℚ` where the source
arithmetic is exact rational arithmetic and as `ℝ` where the source
uses `math.log`.  Uncaught Python exceptions (IndexError,
struct.error) are modelled as `none`/`crash` results.
-/

/-! ## Variable-length quantities (`read_variable_length`, lines 6-14) -/

/-- Loop body of `read_variable_length`: consume bytes from the front of
the remaining stream, accumulating 7 bits per byte, until a byte with the
top bit clear is reached.  Running off the end of the buffer is Python's
uncaught `IndexError`, modelled as `none`. -/
def readVarLoop : ℕ → List ℕ → Option (ℕ × List ℕ)
  | _, [] => none
  | value, b :: rest =>
    if b < 128 then some (value * 128 + b % 128, rest)
    else readVarLoop (value * 128 + b % 128) rest

/-- The source's `read_variable_length(data, offset)`: returns the decoded
value together with the updated offset, or `none` on an out-of-range read. -/
def read_variable_length (data : List ℕ) (offset : ℕ) : Option (ℕ × ℕ) :=
  match readVarLoop 0 (data.drop offset) with
  | none => none
  | some (v, rest) => some (v, data.length - rest.length)

/-- Canonical big-endian 7-bits-per-byte encoding of the value `v`, all
bytes carrying the continuation bit.  Helper for `encodeVar`. -/
def encodeCont (v : ℕ) : List ℕ :=
  if v < 128 then [128 + v] else encodeCont (v / 128) ++ [128 + v % 128]
decreasing_by exact Nat.div_lt_self (by omega) (by omega)

/-- Canonical variable-length encoding of `v`: 7-bit groups, big-endian,
continuation bit set on every byte but the last. -/
def encodeVar (v : ℕ) : List ℕ :=
  if v < 128 then [v] else encodeCont (v / 128) ++ [v % 128]

theorem encodeCont_ne_nil (v : ℕ) : encodeCont v ≠ [] := by
  rw [encodeCont]
  split
  · simp
  · simp

theorem encodeVar_ne_nil (v : ℕ) : encodeVar v ≠ [] := by
  rw [encodeVar]
  split
  · simp
  · simp

/-- Feeding a continuation-encoded block into the decoder loop shifts the
accumulator past the block's digits and continues with the rest. -/
theorem readVarLoop_encodeCont (v : ℕ) :
    ∀ acc rest, readVarLoop acc (encodeCont v ++ rest)
      = readVarLoop (acc * 128 ^ (encodeCont v).length + v) rest := by
  induction v using Nat.strong_induction_on with
  | _ v ih =>
    intro acc rest
    rw [encodeCont]
    by_cases h : v < 128
    · simp only [if_pos h]
      have hb : ¬ (128 + v < 128) := by omega
      simp [readVarLoop, hb, Nat.add_mod_left, Nat.mod_eq_of_lt h]
    · simp only [if_neg h]
      have hdiv : v / 128 < v := Nat.div_lt_self (by omega) (by omega)
      rw [List.append_assoc, List.singleton_append,
        ih (v / 128) hdiv acc ((128 + v % 128) :: rest)]
      have hb : ¬ (128 + v % 128 < 128) := by omega
      simp only [readVarLoop, if_neg hb]
      have hlen : ((encodeCont (v / 128)) ++ [128 + v % 128]).length
          = (encodeCont (v / 128)).length + 1 := by simp
      rw [hlen]
      congr 1
      have key : (v / 128) * 128 + (128 + v % 128) % 128 = v := by omega
      calc (acc * 128 ^ (encodeCont (v / 128)).length + v / 128) * 128
            + (128 + v % 128) % 128
          = acc * (128 ^ (encodeCont (v / 128)).length * 128)
            + ((v / 128) * 128 + (128 + v % 128) % 128) := by ring
        _ = acc * (128 ^ (encodeCont (v / 128)).length * 128) + v := by rw [key]
        _ = acc * 128 ^ ((encodeCont (v / 128)).length + 1) + v := by rw [pow_succ]

/-- Decoding the canonical encoding of `v` followed by any suffix yields
`v` and leaves exactly the suffix. -/
theorem readVarLoop_encodeVar (v : ℕ) (rest : List ℕ) :
    readVarLoop 0 (encodeVar v ++ rest) = some (v, rest) := by
  rw [encodeVar]
  by_cases h : v < 128
  · simp [if_pos h, readVarLoop, h, Nat.mod_eq_of_lt h]
  · simp only [if_neg h]
    rw [List.append_assoc, List.singleton_append,
      readVarLoop_encodeCont (v / 128) 0 ((v % 128) :: rest)]
    have hb : v % 128 < 128 := Nat.mod_lt _ (by omega)
    simp only [readVarLoop, if_pos hb, Nat.zero_mul, Nat.zero_add,
      Option.some.injEq, Prod.mk.injEq]
    exact ⟨by omega, trivial⟩

/-- `read_variable_length` decodes every canonical encoding back to its
value and reports the offset just past the encoded bytes. -/
theorem read_variable_length_encodeVar (v : ℕ) :
    read_variable_length (encodeVar v) 0 = some (v, (encodeVar v).length) := by
  have h := readVarLoop_encodeVar v []
  rw [List.append_nil] at h
  simp [read_variable_length, h]

/-! ## Decoded events (`parse_midi` track loop, lines 47-160) -/

/-- Recognized meta-event subtypes (lines 85-99). -/
inductive MetaSub where
  | setTempo (microseconds : ℕ)
  | trackName (text : List ℕ)
  | endOfTrack
  | unknown
deriving DecidableEq, Repr

/-- Event payload variants, one per branch of the dispatch on the effective
status byte (lines 75-157).  `bare` is an event whose status byte is in
0xF1-0xF6 or 0xF8-0xFE: no branch matches, so the source appends a record
with no `type` field and consumes no data bytes. -/
inductive EKind where
  | meta (metaType : ℕ) (sub : MetaSub)
  | sysexEvt
  | noteOff (note velocity : ℕ)
  | noteOn (note velocity : ℕ)
  | polyKeyPressure (note pressure : ℕ)
  | controlChange (controller value : ℕ)
  | programChange (program : ℕ)
  | channelPressure (pressure : ℕ)
  | pitchBend (value : ℕ)
  | bare
deriving DecidableEq, Repr

/-- A decoded event: accumulated tick position, channel nibble and payload. -/
structure PEvent where
  absoluteTicks : ℕ
  channel : ℕ
  kind : EKind
deriving DecidableEq, Repr

/-- Channel-voice dispatch (lines 106-156) on the effective status byte:
returns the event payload and the number of data bytes consumed, or `none`
on an out-of-range read. -/
def parseVoice (status : ℕ) (rem : List ℕ) : Option (EKind × ℕ) :=
  let et := status / 16
  if et = 8 then
    match rem with
    | n :: v :: _ => some (.noteOff n v, 2)
    | _ => none
  else if et = 9 then
    match rem with
    | n :: v :: _ => some (if v = 0 then .noteOff n 0 else .noteOn n v, 2)
    | _ => none
  else if et = 10 then
    match rem with
    | n :: p :: _ => some (.polyKeyPressure n p, 2)
    | _ => none
  else if et = 11 then
    match rem with
    | c :: v :: _ => some (.controlChange c v, 2)
    | _ => none
  else if et = 12 then
    match rem with
    | p :: _ => some (.programChange p, 1)
    | _ => none
  else if et = 13 then
    match rem with
    | p :: _ => some (.channelPressure p, 1)
    | _ => none
  else if et = 14 then
    match rem with
    | l :: m :: _ => some (.pitchBend (m * 128 + l), 2)
    | _ => none
  else
    some (.bare, 0)

/-- Meta-event decoding (lines 75-99): one type byte, a variable-length
size, then the payload.  The payload slice is Python's `data[offset:offset+length]`
and is silently short when the buffer ends, but a Set Tempo meta event then
indexes `meta_data[0..2]`, an uncaught IndexError (`none`).  Returns the
payload variant and the number of bytes consumed (`1 + sizeBytes + length`,
counting the declared length even when it overshoots the buffer). -/
def parseMeta (rem : List ℕ) : Option (EKind × ℕ) :=
  match rem with
  | [] => none
  | mt :: rem1 =>
    match readVarLoop 0 rem1 with
    | none => none
    | some (len, rem2) =>
      let vlqBytes := rem1.length - rem2.length
      let md := rem2.take len
      if mt = 81 ∧ len = 3 then
        match md with
        | b0 :: b1 :: b2 :: _ =>
          some (.meta mt (.setTempo (b0 * 65536 + b1 * 256 + b2)), 1 + vlqBytes + len)
        | _ => none
      else if mt = 3 then
        some (.meta mt (.trackName md), 1 + vlqBytes + len)
      else if mt = 47 then
        some (.meta mt .endOfTrack, 1 + vlqBytes + len)
      else
        some (.meta mt .unknown, 1 + vlqBytes + len)

/-- System-exclusive decoding (lines 101-104): a variable-length size whose
payload is skipped without being read. -/
def parseSyx (rem : List ℕ) : Option (EKind × ℕ) :=
  match readVarLoop 0 rem with
  | none => none
  | some (len, rem2) => some (.sysexEvt, rem.length - rem2.length + len)

/-- Dispatch on the effective status byte (lines 75-156): meta for 0xFF,
system exclusive for 0xF0/0xF7, channel voice otherwise. -/
def parseKind (status : ℕ) (rem : List ℕ) : Option (EKind × ℕ) :=
  if status = 255 then parseMeta rem
  else if status = 240 ∨ status = 247 then parseSyx rem
  else parseVoice status rem

/-- Outcome of one iteration of the track event loop: an uncaught
exception, the running-status error (`print` + `break`, line 62-64, with
the delta bytes already consumed), or a decoded event together with the
total bytes consumed and the updated tick accumulator and last status. -/
inductive StepRes where
  | crash
  | rsError (deltaBytes : ℕ)
  | ok (e : PEvent) (consumed ticks lastStatus : ℕ)
deriving DecidableEq, Repr

/-- One iteration of the track event loop (lines 51-158): read the delta
time, resolve the status byte (explicit, or inherited via running status
when the high bit is clear), and dispatch.  Status bytes at 0xF0 and above
do not update `last_status` (lines 59-60). -/
def parseStep (rem : List ℕ) (ticks ls : ℕ) : StepRes :=
  match readVarLoop 0 rem with
  | none => .crash
  | some (delta, rem1) =>
    let dc := rem.length - rem1.length
    let ticks1 := ticks + delta
    match rem1 with
    | [] => .crash
    | s0 :: rem2 =>
      if 128 ≤ s0 then
        let ls1 := if s0 < 240 then s0 else ls
        match parseKind s0 rem2 with
        | none => .crash
        | some (k, c) => .ok ⟨ticks1, s0 % 16, k⟩ (dc + 1 + c) ticks1 ls1
      else if ls = 0 then .rsError dc
      else
        match parseKind ls (s0 :: rem2) with
        | none => .crash
        | some (k, c) => .ok ⟨ticks1, ls % 16, k⟩ (dc + c) ticks1 ls

/-- The track event loop `while offset < track_end` (lines 51-158) over the
bytes from the current offset onward.  `toEnd` is `track_end - offset`;
declared meta/sysex lengths advance it even when they overshoot the buffer,
exactly as the source advances `offset`.  Returns the decoded events and
the remaining bytes (the suffix at the final offset), `none` on an uncaught
exception.  Fuel only bounds the iteration count; every iteration consumes
at least one byte, so `toEnd + 1` fuel is never exhausted. -/
def parseEvents (fuel : ℕ) (rem : List ℕ) (toEnd ticks ls : ℕ) (acc : List PEvent) :
    Option (List PEvent × List ℕ) :=
  if toEnd = 0 then some (acc.reverse, rem)
  else
    match fuel with
    | 0 => none
    | fuel' + 1 =>
      match parseStep rem ticks ls with
      | .crash => none
      | .rsError dc => some (acc.reverse, rem.drop dc)
      | .ok e c ticks' ls' => parseEvents fuel' (rem.drop c) (toEnd - c) ticks' ls' (e :: acc)

/-- Decode one track chunk body: the event loop started at the chunk's
first byte with `track_end` equal to the declared length, zero ticks and
no running status (lines 47-49). -/
def parseTrack (bytes : List ℕ) : Option (List PEvent × List ℕ) :=
  parseEvents (bytes.length + 1) bytes bytes.length 0 0 []

/-! ## File-level parsing (`parse_midi`, lines 16-212) -/

/-- Big-endian 32-bit read, `struct.unpack` on a 4-byte slice: Python's
`struct.error` when fewer than 4 bytes remain is modelled as `none`. -/
def read4BE (l : List ℕ) : Option ℕ :=
  match l with
  | b0 :: b1 :: b2 :: b3 :: _ => some (b0 * 16777216 + b1 * 65536 + b2 * 256 + b3)
  | _ => none

/-- Stable insertion of `x` after every element `y` with `le y x`;
together with `stableSortLe` this models Python's stable ascending
`list.sort`. -/
def insertLe (le : α → α → Bool) (x : α) : List α → List α
  | [] => [x]
  | y :: ys => if le y x then y :: insertLe le x ys else x :: y :: ys

/-- Stable ascending sort: elements are inserted in their original order,
each landing after all earlier elements with an equal-or-smaller key, the
behavior of Python's (stable) `list.sort`. -/
def stableSortLe (le : α → α → Bool) (l : List α) : List α :=
  l.foldl (fun acc x => insertLe le x acc) []

/-- Tempo-map construction from the decoded tracks (lines 162-165): every
Set Tempo meta event, in track order, as `(absoluteTicks, tempo)`, then
stably sorted by tick position. -/
def collectTempoEvents (tracks : List (List PEvent)) : List (ℕ × ℕ) :=
  stableSortLe (fun a b => decide (a.1 ≤ b.1))
    ((tracks.map (fun tr => tr.filterMap (fun e =>
      match e.kind with
      | .meta _ (.setTempo t) => some (e.absoluteTicks, t)
      | _ => none))).flatten)

/-- Default-tempo insertion (lines 167-169): if the sorted tempo list is
empty or does not start at tick 0, a point `(0, 500000)` is prepended. -/
def ensureInitialTempo (l : List (ℕ × ℕ)) : List (ℕ × ℕ) :=
  match l with
  | [] => [(0, 500000)]
  | (t, _) :: _ => if 0 < t then (0, 500000) :: l else l

/-- Accumulation loop of `ticks_to_seconds` (lines 176-184): walk the tempo
events not after the query tick, adding each span's elapsed time at the
rate that was current, and track the current tick and tempo. -/
def ticksLoop (tpq : ℕ) (ticks : ℕ) : List (ℕ × ℕ) → ℚ → ℕ → ℕ → ℚ × ℕ × ℕ
  | [], time, ct, tempo => (time, ct, tempo)
  | (tt, tv) :: rest, time, ct, tempo =>
    if ticks < tt then (time, ct, tempo)
    else ticksLoop tpq ticks rest
      (time + ((tt : ℚ) - (ct : ℚ)) * (tempo : ℚ) / ((tpq : ℚ) * 1000000)) tt tv

/-- The source's `ticks_to_seconds` (lines 171-188): step-semantics
integration of the tempo map, starting from time 0, tick 0 and the default
rate 500000 µs per quarter note, with a final span from the last tempo
point to the query tick. -/
def ticks_to_seconds (tempoEvents : List (ℕ × ℕ)) (tpq : ℕ) (ticks : ℕ) : ℚ :=
  match ticksLoop tpq ticks tempoEvents 0 0 500000 with
  | (time, ct, tempo) =>
    time + ((ticks : ℚ) - (ct : ℚ)) * (tempo : ℚ) / ((tpq : ℚ) * 1000000)

/-- A decoded event together with its mapped absolute time in seconds
(lines 195-206). -/
structure TimedEvent where
  ev : PEvent
  time : ℚ
deriving DecidableEq, Repr

/-- Whether an event record carries `type == "noteOff"` (note that a Note
On with velocity zero was already normalized to `noteOff`, lines 118-121). -/
def kindIsNoteOff : EKind → Bool
  | .noteOff _ _ => true
  | _ => false

/-- Last Note Off time (lines 193-204): the largest `time` among noteOff
events, scanned in track order starting from 0, updating on strict
increase. -/
def lastNoteOffTime (tracks : List (List TimedEvent)) : ℚ :=
  tracks.foldl (fun a tr =>
    tr.foldl (fun a te => if kindIsNoteOff te.ev.kind ∧ a < te.time then te.time else a) a) 0

/-- Outer chunk loop (lines 37-160): up to `num_tracks` chunks, each
checked for the `MTrk` tag (a mismatch prints a message and breaks,
returning the tracks decoded so far) and a 4-byte big-endian length.
`none` models an uncaught exception. -/
def parseTracks : ℕ → List ℕ → List (List PEvent) → Option (List (List PEvent) × List ℕ)
  | 0, rem, acc => some (acc.reverse, rem)
  | n + 1, rem, acc =>
    if rem.take 4 ≠ [77, 84, 114, 107] then some (acc.reverse, rem)
    else
      match read4BE (rem.drop 4) with
      | none => none
      | some trackLen =>
        match parseEvents (trackLen + 1) (rem.drop 8) trackLen 0 0 [] with
        | none => none
        | some (evts, rem') => parseTracks n rem' (evts :: acc)

/-- Caller-visible outcome of `parse_midi`: an uncaught exception
(`crash`), an explicit `return None` after a printed message (`retNone`),
or the processed tracks with the last Note Off time. -/
inductive POut where
  | crash
  | retNone
  | ok (tracks : List (List TimedEvent)) (lastNoteOff : ℚ)
deriving DecidableEq, Repr

/-- The source's `parse_midi` over a fully materialized byte buffer
(lines 16-212): header tag and length checks, SMPTE rejection, the track
chunk loop, tempo-map construction and the per-event tick-to-seconds
mapping.  `struct.unpack('>HHH', ...)` requires its slice to hold exactly
6 bytes, so any header length other than 6 (or a short buffer) raises
`struct.error`, modelled as `crash`. -/
def parse_midi (data : List ℕ) : POut :=
  if data.take 4 ≠ [77, 84, 104, 100] then .retNone
  else
    match read4BE (data.drop 4) with
    | none => .crash
    | some headerLen =>
      match (data.drop 8).take headerLen with
      | [f0, f1, t0, t1, d0, d1] =>
        let numTracks := t0 * 256 + t1
        let division := d0 * 256 + d1
        let _format := f0 * 256 + f1
        if 32768 ≤ division then .retNone
        else
          match parseTracks numTracks (data.drop (8 + headerLen)) [] with
          | none => .crash
          | some (tracks, _) =>
            let tempoEvents := ensureInitialTempo (collectTempoEvents tracks)
            let timed := tracks.map (fun tr => tr.map (fun e =>
              TimedEvent.mk e (ticks_to_seconds tempoEvents division e.absoluteTicks)))
            .ok timed (lastNoteOffTime timed)
      | _ => .crash

/-! ## Timeline assembly from the automation source (`dawproject_to_json.py`,
`main`, lines 317-356) and optional rescale (`midi_to_json_custom.py`,
lines 224-236) -/

/-- Event type tags as they appear in the assembled per-track records of
`dawproject_to_json.py`. -/
inductive DType where
  | noteOnT
  | noteOffT
  | metaT
deriving DecidableEq, Repr

/-- The fields of an assembled event that the sort consults, plus the note
number to tell events apart. -/
structure DEvent where
  absoluteTicks : ℕ
  dtype : DType
  note : ℕ
deriving DecidableEq, Repr

/-- Second sort-key component `x['type'] == 'noteOff'` (line 333): Python
compares booleans as 0 < 1. -/
def keyBit (e : DEvent) : ℕ :=
  if e.dtype = DType.noteOffT then 1 else 0

/-- Sort predicate of `evts.sort(key=lambda x: (x['absoluteTicks'],
x['type'] == 'noteOff'))` (line 333): lexicographic on the tick position
and the noteOff flag. -/
def dawLe (a b : DEvent) : Bool :=
  decide (a.absoluteTicks < b.absoluteTicks
    ∨ (a.absoluteTicks = b.absoluteTicks ∧ keyBit a ≤ keyBit b))

/-- The assembled-track sort of line 333, as a stable ascending sort. -/
def sortDawEvents (l : List DEvent) : List DEvent :=
  stableSortLe dawLe l

/-- Multiply every event time by `factor` (lines 232-234). -/
def scaleTracks (factor : ℚ) (tracks : List (List TimedEvent)) : List (List TimedEvent) :=
  tracks.map (fun tr => tr.map (fun te => ⟨te.ev, te.time * factor⟩))

/-- The `__main__` rescale logic (lines 224-236): with a truthy target
duration, scale every time by `target / lastNoteOff` when the last Note
Off time is positive, otherwise warn and leave the times unchanged. -/
def applyScaling (targetDuration : Option ℚ) (tracks : List (List TimedEvent))
    (lastNoteOff : ℚ) : List (List TimedEvent) :=
  match targetDuration with
  | none => tracks
  | some d =>
    if d = 0 then tracks
    else if 0 < lastNoteOff then scaleTracks (d / lastNoteOff) tracks
    else tracks

/-! ## Claim C1 -/

/-- C1 counterexample: with a single tempo point at tick 0 of rate 500000
µs per quarter note and 480 ticks per quarter note, the source's
`ticks_to_seconds` does NOT map tick 480 to 1.0 second. -/
theorem c1_tick480_not_one_second :
    ticks_to_seconds [(0, 500000)] 480 480 ≠ 1 := by
  norm_num [ticks_to_seconds, ticksLoop]

/-- C1 (amended): under that tempo map tick 480 maps to exactly 0.5
seconds — one quarter note at 500000 µs (120 BPM) lasts half a second. -/
theorem c1_tick480_half_second :
    ticks_to_seconds [(0, 500000)] 480 480 = 1 / 2 := by
  norm_num [ticks_to_seconds, ticksLoop]

/-! ## Claim C4 -/

/-- C4 counterexample: a six-byte variable-length encoding (35 bits of
payload) decodes successfully to `2 ^ 35`, instead of failing with a
`MalformedVarint` error at a 32-bit cap. -/
theorem c4_wide_varint_succeeds :
    read_variable_length [129, 128, 128, 128, 128, 0] 0 = some (34359738368, 6)
      ∧ 2 ^ 32 ≤ 34359738368 := by
  exact ⟨by decide, by norm_num⟩

/-- C4 (amended): decoding accumulates 7 bits per byte while the top bit
is set, with no maximum-width cap: the canonical encoding of every value,
however wide, decodes back to that value with the offset just past the
encoded bytes. -/
theorem c4_varint_no_width_cap (v : ℕ) :
    read_variable_length (encodeVar v) 0 = some (v, (encodeVar v).length) :=
  read_variable_length_encodeVar v

/-! ## Claim C5 -/

/-- C5: for every `v < 2 ^ 28`, decoding the canonical variable-length
encoding of `v` yields `v` back, consuming exactly the encoded bytes. -/
theorem c5_decode_encode_roundtrip (v : ℕ) (_h : v < 2 ^ 28) :
    read_variable_length (encodeVar v) 0 = some (v, (encodeVar v).length) :=
  read_variable_length_encodeVar v

/-- C5 witness: the round-trip at the concrete value 100000. -/
theorem c5_decode_encode_roundtrip_witness :
    100000 < 2 ^ 28
      ∧ read_variable_length (encodeVar 100000) 0 = some (100000, (encodeVar 100000).length) :=
  ⟨by norm_num, c5_decode_encode_roundtrip 100000 (by norm_num)⟩

/-! ## Claim C3 -/

/-- C3 (code bug): at the failing input — a legato pair where one note's
Note Off shares tick 960 with the next note's Note On — the assembled-track
sort of line 333 places the Note On BEFORE the Note Off, because the sort
key `(absoluteTicks, type == 'noteOff')` orders `False < True`.  This
contradicts the claimed (and commented) policy of Note Off first. -/
theorem c3_noteOn_sorted_before_noteOff :
    sortDawEvents [⟨0, .noteOnT, 60⟩, ⟨960, .noteOffT, 60⟩, ⟨960, .noteOnT, 62⟩, ⟨1920, .noteOffT, 62⟩]
      = [⟨0, .noteOnT, 60⟩, ⟨960, .noteOnT, 62⟩, ⟨960, .noteOffT, 60⟩, ⟨1920, .noteOffT, 62⟩] := by
  decide

/-! ## Claim C7 -/

/-- C7 counterexample: a file whose single track chunk declares length 100
with only 4 bytes remaining makes the event loop run off the end of the
buffer — an uncaught IndexError (`crash`), not a `TruncatedInput` error. -/
theorem c7_overlong_chunk_crashes :
    parse_midi [77, 84, 104, 100, 0, 0, 0, 6, 0, 0, 0, 1, 1, 224,
      77, 84, 114, 107, 0, 0, 0, 100, 0, 144, 60, 64] = POut.crash := by
  decide

/-- C7 (amended): whenever a track chunk declares length 100 but holds only
a single four-byte Note On event, decoding raises the unguarded
out-of-bounds read (modelled `crash`), for every note and velocity byte —
it neither returns a TruncatedInput-style located error nor a silently
truncated event list. -/
theorem c7_overlong_chunk_index_error (n v : ℕ) :
    parse_midi [77, 84, 104, 100, 0, 0, 0, 6, 0, 0, 0, 1, 1, 224,
      77, 84, 114, 107, 0, 0, 0, 100, 0, 144, n, v] = POut.crash := by
  rcases v with _ | k <;> rfl

/-! ## Claim C8 -/

/-- C8 counterexample: a file declaring two tracks whose second chunk tag
is invalid does not fail — `parse_midi` prints a message, breaks out of
the chunk loop, and returns a partial timeline that still contains the
first track's decoded Note On event. -/
theorem c8_partial_timeline_on_bad_tag :
    parse_midi ([77, 84, 104, 100, 0, 0, 0, 6, 0, 0, 0, 2, 1, 224]
        ++ [77, 84, 114, 107, 0, 0, 0, 4, 0, 144, 60, 64] ++ [0, 0, 0, 0])
      = POut.ok [[⟨⟨0, 0, EKind.noteOn 60 64⟩, 0⟩]] 0 := by
  norm_num [parse_midi, parseTracks, parseEvents, parseStep, readVarLoop, parseKind,
    parseVoice, parseMeta, parseSyx, read4BE, collectTempoEvents, stableSortLe, insertLe,
    ensureInitialTempo, ticks_to_seconds, ticksLoop, lastNoteOffTime, kindIsNoteOff]

/-- C8 (amended): decode errors inside the track loop do not discard the
partial timeline.  Here a track whose first event is a meta End Of Track
(which does not set the running status) is followed by a data byte with no
status available: the source prints the running-status error, breaks, and
still returns the track with its already-decoded meta event. -/
theorem c8_partial_results_on_errors :
    parse_midi ([77, 84, 104, 100, 0, 0, 0, 6, 0, 0, 0, 1, 1, 224]
        ++ [77, 84, 114, 107, 0, 0, 0, 6, 0, 255, 47, 0, 0, 50])
      = POut.ok [[⟨⟨0, 15, EKind.meta 47 .endOfTrack⟩, 0⟩]] 0 := by
  norm_num [parse_midi, parseTracks, parseEvents, parseStep, readVarLoop, parseKind,
    parseVoice, parseMeta, parseSyx, read4BE, collectTempoEvents, stableSortLe, insertLe,
    ensureInitialTempo, ticks_to_seconds, ticksLoop, lastNoteOffTime, kindIsNoteOff]

/-! ## Claim C9 -/

/-- C9: with a truthy positive target duration `D` and last Note Off time
`T`: when `0 < T` every event time is multiplied by the single scalar
`D / T`, any event whose time equals `T` (in particular the last Note Off)
lands exactly on `D`, and the scaling preserves the relative order of all
times; when `T = 0` the rescale is skipped and the tracks are unchanged. -/
theorem c9_rescale_law (D T : ℚ) (tracks : List (List TimedEvent))
    (hD : 0 < D) (hT : 0 < T) :
    applyScaling (some D) tracks T = scaleTracks (D / T) tracks
      ∧ (∀ te : TimedEvent, te.time = T → te.time * (D / T) = D)
      ∧ (∀ t1 t2 : ℚ, t1 ≤ t2 ↔ t1 * (D / T) ≤ t2 * (D / T))
      ∧ applyScaling (some D) tracks 0 = tracks := by
  refine ⟨?_, ?_, ?_, ?_⟩
  · simp [applyScaling, hD.ne', hT]
  · intro te h
    rw [h]
    field_simp
  · intro t1 t2
    constructor
    · intro h
      exact mul_le_mul_of_nonneg_right h (le_of_lt (div_pos hD hT))
    · intro h
      exact le_of_mul_le_mul_right h (div_pos hD hT)
  · simp [applyScaling, hD.ne']

/-- C9 witness: target duration 3 with last Note Off time 2 rescales the
single-event track by the scalar 3/2. -/
theorem c9_rescale_law_witness :
    applyScaling (some 3) [[⟨⟨0, 0, EKind.noteOff 60 0⟩, 2⟩]] 2
      = scaleTracks (3 / 2) [[⟨⟨0, 0, EKind.noteOff 60 0⟩, 2⟩]] :=
  (c9_rescale_law 3 2 [[⟨⟨0, 0, EKind.noteOff 60 0⟩, 2⟩]] (by norm_num) (by norm_num)).1

/-! ## Claim C10 -/

/-- C10: status bytes 0xF0-0xFF never update the stored last status: any
track-loop iteration whose explicit status byte is at least 0xF0 either
crashes or produces an event while leaving `last_status` unchanged (and
accumulating the delta ticks); consequently, running status survives
interleaved meta and sysex events — in the concrete track below, the data
byte 61 after a meta and a sysex event resolves to the Note On status
0x90 of the first event. -/
theorem c10_meta_sysex_preserve_running_status :
    (∀ (d s0 : ℕ) (rest : List ℕ) (ticks ls : ℕ), 240 ≤ s0 → s0 < 256 →
      parseStep (encodeVar d ++ s0 :: rest) ticks ls = StepRes.crash
        ∨ ∃ e c, parseStep (encodeVar d ++ s0 :: rest) ticks ls = StepRes.ok e c (ticks + d) ls)
      ∧ parseTrack [0, 144, 60, 64, 0, 255, 5, 0, 0, 240, 0, 0, 61, 65]
        = some ([⟨0, 0, EKind.noteOn 60 64⟩, ⟨0, 15, EKind.meta 5 .unknown⟩,
            ⟨0, 0, EKind.sysexEvt⟩, ⟨0, 0, EKind.noteOn 61 65⟩], []) := by
  constructor
  · intro d s0 rest ticks ls h240 h256
    have h128 : 128 ≤ s0 := by omega
    have hlt : ¬ s0 < 240 := by omega
    simp only [parseStep, readVarLoop_encodeVar, if_pos h128, if_neg hlt]
    cases hk : parseKind s0 rest with
    | none => exact Or.inl rfl
    | some p => exact Or.inr ⟨⟨ticks + d, s0 % 16, p.1⟩, _, rfl⟩
  · decide

/-- C10 witness: the lastStatus-preservation part applied at the concrete
meta event `[0, 255, 5, 0]` with running status 0x90 already set. -/
theorem c10_meta_sysex_preserve_running_status_witness :
    parseStep (encodeVar 0 ++ 255 :: [5, 0]) 0 144 = StepRes.crash
      ∨ ∃ e c, parseStep (encodeVar 0 ++ 255 :: [5, 0]) 0 144 = StepRes.ok e c (0 + 0) 144 :=
  c10_meta_sysex_preserve_running_status.1 0 255 [5, 0] 0 144 (by norm_num) (by norm_num)

/-! ## Ramp-semantics time mapping (`dawproject_to_json.py`,
`beats_to_seconds`, lines 53-209) -/

/-- Full-segment contribution (lines 178-188): for a segment from
`(t1, v1)` to `(t2, v2)` wholly before the query beat, nothing is added
when the span is non-positive; otherwise the near-constant branch
(`|v2 - v1| < 0.0001`) integrates at rate `v1` and the ramp branch uses
the closed-form logarithmic integral. -/
noncomputable def fullSegTime (t1 v1 t2 v2 : ℝ) : ℝ :=
  let dur := t2 - t1
  if 0 < dur then
    if |v2 - v1| < 0.0001 then dur * 60 / v1
    else 60 / ((v2 - v1) / dur) * Real.log (v2 / v1)
  else 0

/-- Partial-segment contribution (lines 189-201): for the segment
containing the query beat, the span runs from `t1` to `beats`; the branch
condition is on the SLOPE `(v2 - v1) / (t2 - t1)`, and the ramp branch
ends at the interpolated rate `v_end`. -/
noncomputable def partSegTime (beats t1 v1 t2 v2 : ℝ) : ℝ :=
  let dur := beats - t1
  if 0 < dur then
    let slope := (v2 - v1) / (t2 - t1)
    if |slope| < 0.0001 then dur * 60 / v1
    else 60 / slope * Real.log ((v1 + slope * dur) / v1)
  else 0

/-- Integration loop over consecutive point pairs (lines 171-201): stop
before a segment starting after the query beat, accumulate full segments,
and return early (`true`) from the segment containing the query beat. -/
noncomputable def segLoop (beats : ℝ) : List (ℝ × ℝ) → ℝ → ℝ × Bool
  | (t1, v1) :: (t2, v2) :: rest, acc =>
    if beats < t1 then (acc, false)
    else if t2 ≤ beats then segLoop beats ((t2, v2) :: rest) (acc + fullSegTime t1 v1 t2 v2)
    else (acc + partSegTime beats t1 v1 t2 v2, true)
  | _, acc => (acc, false)

/-- The source's `beats_to_seconds(beats, initial_bpm, tempo_points)`
(lines 53-209): prepend `(0, initial_bpm)` when the point list is empty or
starts after beat 0, integrate segment by segment, and extrapolate past
the last point at its constant rate unless the loop returned early. -/
noncomputable def beats_to_seconds (beats initial_bpm : ℝ)
    (tempo_points : List (ℝ × ℝ)) : ℝ :=
  let sorted_points :=
    match tempo_points with
    | [] => [(0, initial_bpm)]
    | (t, _) :: _ => if 0 < t then (0, initial_bpm) :: tempo_points else tempo_points
  match segLoop beats sorted_points 0 with
  | (total, true) => total
  | (total, false) =>
    match sorted_points.getLast? with
    | some (lt, lv) => if lt < beats then total + (beats - lt) * 60 / lv else total
    | none => total

/-! ## Claim C2 -/

/-- C2 counterexample: a partial span inside the segment from beat 0 at 60
BPM to beat 100000 at 61 BPM, queried at beat 1.  `|v2 - v1| = 1 ≥ 1e-4`,
so the claim mandates the logarithmic formula, whose value is strictly
below 1 — but the source branches on `|slope| = 1e-5 < 1e-4` and returns
the linear elapsed time of exactly 1 second. -/
theorem c2_partial_span_linear_branch :
    beats_to_seconds 1 60 [(0, 60), (100000, 61)] = 1
      ∧ 60 / ((61 - 60) / (100000 - 0))
          * Real.log ((60 + ((61 - 60) / (100000 - 0)) * (1 - 0)) / 60) < 1 := by
  constructor
  · norm_num [beats_to_seconds, segLoop, partSegTime, abs_of_pos]
  · have harg : ((60:ℝ) + ((61 - 60) / (100000 - 0)) * (1 - 0)) / 60
        = 6000001 / 6000000 := by norm_num
    have hco : (60:ℝ) / ((61 - 60) / (100000 - 0)) = 6000000 := by norm_num
    rw [harg, hco]
    have hlog : Real.log (6000001 / 6000000) < 1 / 6000000 := by
      have h := Real.log_lt_sub_one_of_pos (show (0:ℝ) < 6000001 / 6000000 by norm_num)
        (show (6000001:ℝ) / 6000000 ≠ 1 by norm_num)
      linarith
    have h2 := mul_lt_mul_of_pos_left hlog (show (0:ℝ) < 6000000 by norm_num)
    norm_num at h2
    linarith

/-- C2 (amended): over a full segment the branch condition is
`|v2 - v1| < 1e-4` (constant-rate formula) versus the closed-form
`(60/slope) * ln(v2/v1)`; over a PARTIAL span the source's branch
condition is on the slope `(v2 - v1)/(t2 - t1)` instead, with the ramp
branch ending at the interpolated `v_end`.  In particular a full segment
from beat 0 at 60 BPM to beat 1 at 120 BPM elapses exactly `ln 2`
seconds, strictly between 0.5 and 1. -/
theorem c2_ramp_integration :
    (∀ t1 v1 t2 v2 : ℝ, t1 < t2 →
      (|v2 - v1| < 0.0001 → fullSegTime t1 v1 t2 v2 = (t2 - t1) * 60 / v1)
        ∧ (0.0001 ≤ |v2 - v1| →
            fullSegTime t1 v1 t2 v2 = 60 / ((v2 - v1) / (t2 - t1)) * Real.log (v2 / v1)))
      ∧ (∀ beats t1 v1 t2 v2 : ℝ, t1 < beats →
        (|(v2 - v1) / (t2 - t1)| < 0.0001 →
            partSegTime beats t1 v1 t2 v2 = (beats - t1) * 60 / v1)
          ∧ (0.0001 ≤ |(v2 - v1) / (t2 - t1)| →
              partSegTime beats t1 v1 t2 v2 = 60 / ((v2 - v1) / (t2 - t1))
                * Real.log ((v1 + ((v2 - v1) / (t2 - t1)) * (beats - t1)) / v1)))
      ∧ beats_to_seconds 1 60 [(0, 60), (1, 120)] = Real.log 2
      ∧ 1 / 2 < Real.log 2 ∧ Real.log 2 < 1 := by
  refine ⟨?_, ?_, ?_, ?_, ?_⟩
  · intro t1 v1 t2 v2 h
    constructor
    · intro hc
      simp [fullSegTime, sub_pos.mpr h, hc]
    · intro hc
      simp [fullSegTime, sub_pos.mpr h, not_lt.mpr hc]
  · intro beats t1 v1 t2 v2 h
    constructor
    · intro hc
      simp [partSegTime, sub_pos.mpr h, hc]
    · intro hc
      simp [partSegTime, sub_pos.mpr h, not_lt.mpr hc]
  · norm_num [beats_to_seconds, segLoop, fullSegTime, List.getLast?]
  · linarith [Real.log_two_gt_d9]
  · linarith [Real.log_two_lt_d9]

/-- C2 witness: the full-segment ramp branch at the concrete segment
(0, 60)-(1, 120) and the partial-span slope branch at the concrete
segment (0, 60)-(100000, 61) queried at beat 1. -/
theorem c2_ramp_integration_witness :
    fullSegTime 0 60 1 120 = 60 / ((120 - 60) / (1 - 0)) * Real.log (120 / 60)
      ∧ partSegTime 1 0 60 100000 61 = (1 - 0) * 60 / 60 :=
  ⟨(c2_ramp_integration.1 0 60 1 120 (by norm_num)).2 (by norm_num),
   (c2_ramp_integration.2.1 1 0 60 100000 61 (by norm_num)).1 (by norm_num [abs_of_pos])⟩

/-! ## Claim C6: running status versus explicit status -/

/-- An abstract channel-voice message for the running-status equivalence:
delta ticks, a channel-voice status byte, and one or two data bytes
(`d2` is unused by the one-byte opcodes 0xC and 0xD). -/
structure VMsg where
  delta : ℕ
  status : ℕ
  d1 : ℕ
  d2 : ℕ
deriving DecidableEq, Repr

/-- The data bytes a message contributes to the stream: one byte for
Program Change (0xC) and Channel Pressure (0xD), two for the rest. -/
def dataBytes (m : VMsg) : List ℕ :=
  if m.status / 16 = 12 ∨ m.status / 16 = 13 then [m.d1] else [m.d1, m.d2]

/-- Well-formedness: a channel-voice status byte (0x80-0xEF) and 7-bit
data bytes. -/
def WfMsg (m : VMsg) : Prop :=
  128 ≤ m.status ∧ m.status < 240 ∧ m.d1 < 128 ∧ m.d2 < 128

instance (m : VMsg) : Decidable (WfMsg m) := by
  unfold WfMsg
  infer_instance

/-- The event payload the track loop decodes for a message, per the
dispatch of lines 106-156 (including Note On velocity-0 normalization). -/
def kindOf (m : VMsg) : EKind :=
  if m.status / 16 = 8 then .noteOff m.d1 m.d2
  else if m.status / 16 = 9 then (if m.d2 = 0 then .noteOff m.d1 0 else .noteOn m.d1 m.d2)
  else if m.status / 16 = 10 then .polyKeyPressure m.d1 m.d2
  else if m.status / 16 = 11 then .controlChange m.d1 m.d2
  else if m.status / 16 = 12 then .programChange m.d1
  else if m.status / 16 = 13 then .channelPressure m.d1
  else .pitchBend (m.d2 * 128 + m.d1)

/-- Serialization writing every status byte explicitly. -/
def serExplicit : List VMsg → List ℕ
  | [] => []
  | m :: rest => encodeVar m.delta ++ m.status :: (dataBytes m ++ serExplicit rest)

/-- Serialization omitting a status byte equal to the previous one
(running status); `prev` is the status of the preceding message, 0 when
none. -/
def serRunning : ℕ → List VMsg → List ℕ
  | _, [] => []
  | prev, m :: rest =>
    encodeVar m.delta
      ++ (if m.status = prev then dataBytes m ++ serRunning m.status rest
          else m.status :: (dataBytes m ++ serRunning m.status rest))

/-- The channel-voice dispatch decodes a well-formed message\'s data bytes
to its payload, consuming exactly them. -/
theorem parseVoice_dataBytes (m : VMsg) (hm : WfMsg m) (tail : List ℕ) :
    parseVoice m.status (dataBytes m ++ tail) = some (kindOf m, (dataBytes m).length) := by
  obtain ⟨h1, h2, h3, h4⟩ := hm
  have het : m.status / 16 = 8 ∨ m.status / 16 = 9 ∨ m.status / 16 = 10 ∨ m.status / 16 = 11
      ∨ m.status / 16 = 12 ∨ m.status / 16 = 13 ∨ m.status / 16 = 14 := by omega
  rcases het with h | h | h | h | h | h | h <;>
    simp [parseVoice, dataBytes, kindOf, h]

/-- A channel-voice status is neither meta nor sysex, so `parseKind`
agrees with the voice dispatch. -/
theorem parseKind_dataBytes (m : VMsg) (hm : WfMsg m) (tail : List ℕ) :
    parseKind m.status (dataBytes m ++ tail) = some (kindOf m, (dataBytes m).length) := by
  have hv := parseVoice_dataBytes m hm tail
  obtain ⟨h1, h2, h3, h4⟩ := hm
  have ha : m.status ≠ 255 := by omega
  have hb : ¬ (m.status = 240 ∨ m.status = 247) := by omega
  simp [parseKind, ha, hb, hv]

/-- One loop iteration over an explicitly-serialized message, from any
prior last status: delta accumulated, status consumed and stored. -/
theorem parseStep_explicit (m : VMsg) (hm : WfMsg m) (tail : List ℕ) (ticks ls0 : ℕ) :
    parseStep (encodeVar m.delta ++ m.status :: (dataBytes m ++ tail)) ticks ls0
      = StepRes.ok ⟨ticks + m.delta, m.status % 16, kindOf m⟩
          ((encodeVar m.delta).length + 1 + (dataBytes m).length) (ticks + m.delta) m.status := by
  have hk := parseKind_dataBytes m hm tail
  obtain ⟨h1, h2, h3, h4⟩ := hm
  simp [parseStep, readVarLoop_encodeVar, hk, h1, h2]

/-- One loop iteration over a message whose status byte was omitted and
whose status equals the stored last status: the data byte\'s clear high bit
routes through the running-status branch, producing the same event. -/
theorem parseStep_running (m : VMsg) (hm : WfMsg m) (tail : List ℕ) (ticks : ℕ) :
    parseStep (encodeVar m.delta ++ (dataBytes m ++ tail)) ticks m.status
      = StepRes.ok ⟨ticks + m.delta, m.status % 16, kindOf m⟩
          ((encodeVar m.delta).length + (dataBytes m).length) (ticks + m.delta) m.status := by
  have hk := parseKind_dataBytes m hm tail
  obtain ⟨h1, h2, h3, h4⟩ := hm
  obtain ⟨ds, hd⟩ : ∃ ds, dataBytes m = m.d1 :: ds := by
    unfold dataBytes
    split
    · exact ⟨[], rfl⟩
    · exact ⟨[m.d2], rfl⟩
  rw [hd] at hk ⊢
  simp only [List.cons_append] at hk
  have hdl : ¬ 128 ≤ m.d1 := by omega
  have hs0 : m.status ≠ 0 := by omega
  simp [parseStep, readVarLoop_encodeVar, hk, hdl, hs0]

/-- Canonical variable-length encodings are nonempty. -/
theorem encodeVar_length_pos (v : ℕ) : 0 < (encodeVar v).length :=
  List.length_pos.mpr (encodeVar_ne_nil v)

/-- The explicit serialization has at least one byte per message. -/
theorem serExplicit_length_ge (msgs : List VMsg) :
    msgs.length ≤ (serExplicit msgs).length := by
  induction msgs with
  | nil => simp [serExplicit]
  | cons m rest ih =>
    have := encodeVar_length_pos m.delta
    simp only [serExplicit, List.length_append, List.length_cons]
    omega

/-- The running serialization has at least one byte per message. -/
theorem serRunning_length_ge (prev : ℕ) (msgs : List VMsg) :
    msgs.length ≤ (serRunning prev msgs).length := by
  induction msgs generalizing prev with
  | nil => simp [serRunning]
  | cons m rest ih =>
    have h1 := encodeVar_length_pos m.delta
    have h2 := ih m.status
    have h3 : 0 < (dataBytes m).length := by
      unfold dataBytes
      split <;> simp
    rw [serRunning]
    split <;> simp only [List.length_append, List.length_cons, List.length_append] <;> omega

/-- Unfolding lemma: one successful step of the event loop. -/
theorem parseEvents_ok (fuel : ℕ) (rem : List ℕ) (toEnd ticks ls : ℕ) (acc : List PEvent)
    (e : PEvent) (c ticks' ls' : ℕ) (h : toEnd ≠ 0)
    (hs : parseStep rem ticks ls = StepRes.ok e c ticks' ls') :
    parseEvents (fuel + 1) rem toEnd ticks ls acc
      = parseEvents fuel (rem.drop c) (toEnd - c) ticks' ls' (e :: acc) := by
  rw [parseEvents.eq_def, if_neg h, hs]

/-- Dropping exactly the length of a prefix. -/
theorem drop_app_len (a b : List ℕ) (n : ℕ) (h : n = a.length) : (a ++ b).drop n = b := by
  subst h
  exact List.drop_left a b

/-- Remaining length after a prefix of known length. -/
theorem len_app_sub (a b : List ℕ) (n : ℕ) (h : n = a.length) :
    (a ++ b).length - n = b.length := by
  subst h
  simp

/-- Core equivalence: from equal loop states, decoding the
running-status serialization and the explicit serialization of the same
well-formed messages yields identical results. -/
theorem parseEvents_running_explicit (msgs : List VMsg) :
    ∀ (prev ticks : ℕ) (acc : List PEvent) (f1 f2 : ℕ),
    (∀ m ∈ msgs, WfMsg m) → (prev = 0 ∨ (128 ≤ prev ∧ prev < 240)) →
    msgs.length ≤ f1 → msgs.length ≤ f2 →
    parseEvents f1 (serRunning prev msgs) (serRunning prev msgs).length ticks prev acc
      = parseEvents f2 (serExplicit msgs) (serExplicit msgs).length ticks prev acc := by
  induction msgs with
  | nil =>
    intro prev ticks acc f1 f2 _ _ _ _
    simp only [serRunning, serExplicit]
    rw [parseEvents.eq_def, parseEvents.eq_def]
    simp
  | cons m rest ih =>
    intro prev ticks acc f1 f2 hwf hprev hf1 hf2
    have hm : WfMsg m := hwf m (by simp)
    have hrest : ∀ x ∈ rest, WfMsg x := fun x hx => hwf x (by simp [hx])
    have hprev' : m.status = 0 ∨ (128 ≤ m.status ∧ m.status < 240) :=
      Or.inr ⟨hm.1, hm.2.1⟩
    simp only [List.length_cons] at hf1 hf2
    obtain ⟨f1', rfl⟩ : ∃ k, f1 = k + 1 := ⟨f1 - 1, by omega⟩
    obtain ⟨f2', rfl⟩ : ∃ k, f2 = k + 1 := ⟨f2 - 1, by omega⟩
    have hevp := encodeVar_length_pos m.delta
    -- explicit side
    have hserE : serExplicit (m :: rest)
        = encodeVar m.delta ++ m.status :: (dataBytes m ++ serExplicit rest) := rfl
    have hEne : (serExplicit (m :: rest)).length ≠ 0 := by
      rw [hserE]
      simp only [List.length_append, List.length_cons]
      omega
    have hstepE := parseStep_explicit m hm (serExplicit rest) ticks prev
    have hassocE : encodeVar m.delta ++ m.status :: (dataBytes m ++ serExplicit rest)
        = (encodeVar m.delta ++ m.status :: dataBytes m) ++ serExplicit rest := by
      simp
    have hdropE : (encodeVar m.delta ++ m.status :: (dataBytes m ++ serExplicit rest)).drop
        ((encodeVar m.delta).length + 1 + (dataBytes m).length) = serExplicit rest := by
      rw [hassocE]
      apply drop_app_len
      simp only [List.length_append, List.length_cons]
      omega
    have hlenE : (encodeVar m.delta ++ m.status :: (dataBytes m ++ serExplicit rest)).length
        - ((encodeVar m.delta).length + 1 + (dataBytes m).length)
        = (serExplicit rest).length := by
      rw [hassocE]
      apply len_app_sub
      simp only [List.length_append, List.length_cons]
      omega
    rw [hserE] at hEne ⊢
    rw [parseEvents_ok f2' _ _ _ _ _ _ _ _ _ hEne hstepE, hdropE, hlenE]
    -- running side
    by_cases hps : m.status = prev
    · subst hps
      have hserR : serRunning m.status (m :: rest)
          = encodeVar m.delta ++ (dataBytes m ++ serRunning m.status rest) := by
        rw [serRunning, if_pos rfl]
      have hRne : (encodeVar m.delta ++ (dataBytes m ++ serRunning m.status rest)).length ≠ 0 := by
        simp only [List.length_append]
        omega
      have hstepR := parseStep_running m hm (serRunning m.status rest) ticks
      have hassocR : encodeVar m.delta ++ (dataBytes m ++ serRunning m.status rest)
          = (encodeVar m.delta ++ dataBytes m) ++ serRunning m.status rest := by
        simp
      have hdropR : (encodeVar m.delta ++ (dataBytes m ++ serRunning m.status rest)).drop
          ((encodeVar m.delta).length + (dataBytes m).length)
          = serRunning m.status rest := by
        rw [hassocR]
        apply drop_app_len
        simp only [List.length_append]
      have hlenR : (encodeVar m.delta ++ (dataBytes m ++ serRunning m.status rest)).length
          - ((encodeVar m.delta).length + (dataBytes m).length)
          = (serRunning m.status rest).length := by
        rw [hassocR]
        apply len_app_sub
        simp only [List.length_append]
      rw [hserR]
      rw [parseEvents_ok f1' _ _ _ _ _ _ _ _ _ hRne hstepR, hdropR, hlenR]
      exact ih m.status (ticks + m.delta) _ f1' f2' hrest hprev' (by omega) (by omega)
    · have hserR : serRunning prev (m :: rest)
          = encodeVar m.delta ++ m.status :: (dataBytes m ++ serRunning m.status rest) := by
        rw [serRunning, if_neg hps]
      have hRne : (encodeVar m.delta
          ++ m.status :: (dataBytes m ++ serRunning m.status rest)).length ≠ 0 := by
        simp only [List.length_append, List.length_cons]
        omega
      have hstepR := parseStep_explicit m hm (serRunning m.status rest) ticks prev
      have hassocR : encodeVar m.delta ++ m.status :: (dataBytes m ++ serRunning m.status rest)
          = (encodeVar m.delta ++ m.status :: dataBytes m) ++ serRunning m.status rest := by
        simp
      have hdropR : (encodeVar m.delta
            ++ m.status :: (dataBytes m ++ serRunning m.status rest)).drop
          ((encodeVar m.delta).length + 1 + (dataBytes m).length)
          = serRunning m.status rest := by
        rw [hassocR]
        apply drop_app_len
        simp only [List.length_append, List.length_cons]
        omega
      have hlenR : (encodeVar m.delta
            ++ m.status :: (dataBytes m ++ serRunning m.status rest)).length
          - ((encodeVar m.delta).length + 1 + (dataBytes m).length)
          = (serRunning m.status rest).length := by
        rw [hassocR]
        apply len_app_sub
        simp only [List.length_append, List.length_cons]
        omega
      rw [hserR]
      rw [parseEvents_ok f1' _ _ _ _ _ _ _ _ _ hRne hstepR, hdropR, hlenR]
      exact ih m.status (ticks + m.delta) _ f1' f2' hrest hprev' (by omega) (by omega)

/-- C6: for every well-formed channel-voice message stream, decoding the
version that omits repeated status bytes (relying on running status)
produces exactly the same decode result as the stream with every status
byte written explicitly. -/
theorem c6_running_status_equivalence (msgs : List VMsg) (h : ∀ m ∈ msgs, WfMsg m) :
    parseTrack (serRunning 0 msgs) = parseTrack (serExplicit msgs) := by
  unfold parseTrack
  exact parseEvents_running_explicit msgs 0 0 [] _ _ h (Or.inl rfl)
    (le_trans (serRunning_length_ge 0 msgs) (Nat.le_succ_of_le le_rfl))
    (le_trans (serExplicit_length_ge msgs) (Nat.le_succ_of_le le_rfl))

/-- C6 witness: two Note On messages on channel 0 where the second omits
its repeated status byte. -/
theorem c6_running_status_equivalence_witness :
    (∀ m ∈ [VMsg.mk 0 144 60 64, VMsg.mk 1 144 62 0], WfMsg m)
      ∧ parseTrack (serRunning 0 [VMsg.mk 0 144 60 64, VMsg.mk 1 144 62 0])
        = parseTrack (serExplicit [VMsg.mk 0 144 60 64, VMsg.mk 1 144 62 0]) :=
  ⟨by decide, c6_running_status_equivalence [VMsg.mk 0 144 60 64, VMsg.mk 1 144 62 0] (by decide)⟩
